import Mathlib

/-!
Shallow embedding of `src/main.rs` of the midi2json repository.

The core is `get_notes` (the note-pairing fold over one track's events) and
`get_time_seconds` (the tick→seconds conversion).  Floating-point values
(`f32` bpm, `f64` times) are embedded as exact rationals: every constant the
code uses (`1.6`, `0.0`) is exactly representable and the arithmetic is the
literal formula of the source.  The `u32` clock `cur_time` is embedded as a
natural number with explicit wrap-around modulo `2 ^ 32` on addition.  The
`Option::unwrap` panic on an unmatched note-off is embedded by making the
fold return `Option`: `none` is the aborted (panicked) run, which yields no
note list at all.
-/

namespace Midi2Json

/-- MIDI channel messages as `get_notes` distinguishes them: `NoteOn` and
`NoteOff` carry a pitch and a velocity (midly's `u7` values, embedded as
naturals); every other channel message falls into the wildcard arm of the
source's `match`, collapsed here into `Other`. -/
inductive MidiMessage where
  | NoteOn (pitch : Nat) (velocity : Nat)
  | NoteOff (pitch : Nat) (velocity : Nat)
  | Other
deriving DecidableEq, Repr

/-- Event kinds: a channel-voice message with its channel, or any non-MIDI
event kind (meta, sysex, ...), which the source's `if let` skips. -/
inductive EventKind where
  | Midi (channel : Nat) (message : MidiMessage)
  | Other
deriving DecidableEq, Repr

/-- A track event: `delta` is `event.delta.as_int()` (a `u32` value) and
`kind` is `event.kind`. -/
structure Event where
  delta : Nat
  kind : EventKind
deriving DecidableEq, Repr

/-- The output record `Note` of the source, with `f64` fields as rationals. -/
structure Note where
  time_start : ℚ
  time_end : ℚ
  pitch_value : Nat
deriving DecidableEq, Repr

/-- Size of the `u32` range. -/
def u32size : Nat := 2 ^ 32

/-- Addition of `u32` values: wraps modulo `2 ^ 32`, the semantics of
`cur_time + delta` on `u32` operands. -/
def u32add (a b : Nat) : Nat := (a + b) % u32size

/-- The source's `get_time_seconds`: `ticks / (bpm * 1.6)`, with the cast
`bpm as f64` and the division embedded exactly over `ℚ`. -/
def get_time_seconds (ticks : Nat) (bpm : ℚ) : ℚ :=
  let ticks_per_sec : ℚ := bpm * 1.6
  (ticks : ℚ) / ticks_per_sec

/-- Modelled from the spec: the formula of §4.1, `seconds = ticks / (bpm * K)`
with `K = 1.6`, written from the spec's words to be compared with the
source's `get_time_seconds`. -/
def seconds_spec (ticks : Nat) (bpm : ℚ) : ℚ :=
  (ticks : ℚ) / (bpm * 1.6)

/-- The mutable locals of `get_notes`: the accumulated output `notes`, the
absolute clock `cur_time : u32` and the pending slot `cur_note`. -/
structure PairState where
  notes : List Note
  cur_time : Nat
  cur_note : Option Note
deriving DecidableEq, Repr

/-- One iteration of the `for event in track` loop of `get_notes`.
`none` is the `cur_note.unwrap()` panic on a note-off with empty pending
slot.  Note that the source's note-off arm reads `cur_note` by `Copy` and
never writes it back, so the pending slot is unchanged there. -/
def stepEvent (bpm : ℚ) (s : PairState) (e : Event) : Option PairState :=
  let cur_time := u32add s.cur_time e.delta
  match e.kind with
  | EventKind.Midi _ (MidiMessage.NoteOn pitch _) =>
      some ⟨s.notes, cur_time,
        some ⟨get_time_seconds cur_time bpm, 0, pitch⟩⟩
  | EventKind.Midi _ (MidiMessage.NoteOff _ _) =>
      match s.cur_note with
      | none => none
      | some partial_note =>
          some ⟨s.notes ++
              [⟨partial_note.time_start, get_time_seconds cur_time bpm,
                partial_note.pitch_value⟩],
            cur_time, some partial_note⟩
  | EventKind.Midi _ MidiMessage.Other => some ⟨s.notes, cur_time, s.cur_note⟩
  | EventKind.Other => some ⟨s.notes, cur_time, s.cur_note⟩

/-- The loop of `get_notes`, folded from an arbitrary state. -/
def runEvents (bpm : ℚ) (s : PairState) : List Event → Option PairState
  | [] => some s
  | e :: rest =>
      match stepEvent bpm s e with
      | none => none
      | some s1 => runEvents bpm s1 rest

/-- The initial state of `get_notes`: empty output, clock `0`, no pending. -/
def initState : PairState := ⟨[], 0, none⟩

/-- The source's `get_notes`, made fallible: `none` is the panicked run
(no note list produced), `some ns` the returned `Vec<Note>`. -/
def get_notes (track : List Event) (bpm : ℚ) : Option (List Note) :=
  (runEvents bpm initState track).map PairState.notes

/-- Event classifier: is this a note-begin (`NoteOn`) event? -/
def isNoteOn (e : Event) : Bool :=
  match e.kind with
  | EventKind.Midi _ (MidiMessage.NoteOn _ _) => true
  | _ => false

/-- Event classifier: is this a note-end (`NoteOff`) event? -/
def isNoteOff (e : Event) : Bool :=
  match e.kind with
  | EventKind.Midi _ (MidiMessage.NoteOff _ _) => true
  | _ => false

/-- True exactly when some note-end event occurs with no note-begin event
anywhere before it: the first note message in the list, if any, is a
note-off. -/
def hasUnmatchedEnd : List Event → Bool
  | [] => false
  | e :: rest =>
      if isNoteOff e then true
      else if isNoteOn e then false
      else hasUnmatchedEnd rest

/-- One begin/end pair of an alternating track: the data of a NoteOn event
followed by a NoteOff event, with arbitrary deltas, channels, velocities. -/
structure NotePair where
  onDelta : Nat
  onChannel : Nat
  pitch : Nat
  onVelocity : Nat
  offDelta : Nat
  offChannel : Nat
  offPitch : Nat
  offVelocity : Nat
deriving DecidableEq, Repr

/-- The two events contributed by one begin/end pair. -/
def pairToEvents (p : NotePair) : List Event :=
  [⟨p.onDelta, EventKind.Midi p.onChannel
      (MidiMessage.NoteOn p.pitch p.onVelocity)⟩,
   ⟨p.offDelta, EventKind.Midi p.offChannel
      (MidiMessage.NoteOff p.offPitch p.offVelocity)⟩]

/-- A track of strictly alternating NoteBegin/NoteEnd pairs. -/
def alternatingTrack (ps : List NotePair) : List Event :=
  (ps.map pairToEvents).flatten

/-- The notes the fold produces on an alternating track starting at clock
`ct`: one note per pair, stamped at the accumulated clock values. -/
def expectedNotes (bpm : ℚ) : Nat → List NotePair → List Note
  | _, [] => []
  | ct, p :: ps =>
      let t1 := u32add ct p.onDelta
      let t2 := u32add t1 p.offDelta
      ⟨get_time_seconds t1 bpm, get_time_seconds t2 bpm, p.pitch⟩ ::
        expectedNotes bpm t2 ps

/-- Velocity erasure: replaces every velocity by 0, keeping delta, channel,
pitch and the message kind. -/
def eraseVelocity (e : Event) : Event :=
  match e.kind with
  | EventKind.Midi ch (MidiMessage.NoteOn p _) =>
      ⟨e.delta, EventKind.Midi ch (MidiMessage.NoteOn p 0)⟩
  | EventKind.Midi ch (MidiMessage.NoteOff p _) =>
      ⟨e.delta, EventKind.Midi ch (MidiMessage.NoteOff p 0)⟩
  | _ => e

/-- Invariant carried through the fold for C8: every finalized note has
`time_start ≤ time_end`, and the pending note's start time was stamped at
some clock value not later than the current clock. -/
def goodState (bpm : ℚ) (s : PairState) : Prop :=
  (∀ note ∈ s.notes, note.time_start ≤ note.time_end) ∧
  ∀ n, s.cur_note = some n →
    ∃ t0, t0 ≤ s.cur_time ∧ n.time_start = get_time_seconds t0 bpm

/-! ### TimeConverter lemmas -/

theorem get_time_seconds_eq (ticks : Nat) (bpm : ℚ) :
    get_time_seconds ticks bpm = (ticks : ℚ) / (bpm * 1.6) := rfl

theorem ticks_per_sec_pos {bpm : ℚ} (h : 0 < bpm) : 0 < bpm * 1.6 := by
  have h16 : (0 : ℚ) < 1.6 := by norm_num
  exact mul_pos h h16

theorem seconds_mono_ticks {t1 t2 : Nat} {bpm : ℚ} (hb : 0 < bpm)
    (ht : t1 ≤ t2) : get_time_seconds t1 bpm ≤ get_time_seconds t2 bpm := by
  rw [get_time_seconds_eq, get_time_seconds_eq]
  have hpos := ticks_per_sec_pos hb
  have : (t1 : ℚ) ≤ (t2 : ℚ) := by exact_mod_cast ht
  exact div_le_div_of_nonneg_right this hpos.le |>.trans_eq rfl

theorem seconds_anti_bpm {t : Nat} {b1 b2 : ℚ} (hb1 : 0 < b1)
    (hb : b1 ≤ b2) : get_time_seconds t b2 ≤ get_time_seconds t b1 := by
  rw [get_time_seconds_eq, get_time_seconds_eq]
  have h1 := ticks_per_sec_pos hb1
  have h2 : b1 * 1.6 ≤ b2 * 1.6 := by
    have h16 : (0 : ℚ) ≤ 1.6 := by norm_num
    exact mul_le_mul_of_nonneg_right hb h16
  have hnn : (0 : ℚ) ≤ (t : ℚ) := by positivity
  exact div_le_div_of_nonneg_left hnn h1 h2 |>.trans_eq rfl

/-- C4: get_time_seconds is ticks / (bpm * 1.6); it is 0 at ticks = 0 for
every positive bpm; and all six concrete test cases of the source's unit
tests hold. -/
theorem C4_seconds_formula :
    (∀ (ticks : Nat) (bpm : ℚ), 0 < bpm →
        get_time_seconds ticks bpm = seconds_spec ticks bpm) ∧
    (∀ bpm : ℚ, 0 < bpm → get_time_seconds 0 bpm = 0) ∧
    get_time_seconds 0 120 = 0 ∧ get_time_seconds 48 120 = 0.25 ∧
    get_time_seconds 192 120 = 1 ∧ get_time_seconds 0 60 = 0 ∧
    get_time_seconds 48 60 = 0.5 ∧ get_time_seconds 96 60 = 1 := by
  refine ⟨fun ticks bpm _ => rfl, fun bpm _ => ?_, ?_, ?_, ?_, ?_, ?_, ?_⟩ <;>
    simp [get_time_seconds] <;> norm_num

/-- Witness for C4 at ticks = 48, bpm = 120. -/
theorem C4_seconds_formula_witness :
    (0 : ℚ) < 120 ∧ get_time_seconds 48 120 = seconds_spec 48 120 :=
  ⟨by norm_num, C4_seconds_formula.1 48 120 (by norm_num)⟩

/-- C7: get_time_seconds is monotonically non-decreasing in ticks and
monotonically non-increasing in bpm, for positive bpm. -/
theorem C7_seconds_monotone :
    (∀ (t1 t2 : Nat) (bpm : ℚ), 0 < bpm → t1 ≤ t2 →
        get_time_seconds t1 bpm ≤ get_time_seconds t2 bpm) ∧
    (∀ (t : Nat) (b1 b2 : ℚ), 0 < b1 → b1 ≤ b2 →
        get_time_seconds t b1 ≥ get_time_seconds t b2) :=
  ⟨fun _ _ _ hb ht => seconds_mono_ticks hb ht,
   fun _ _ _ hb1 hb => seconds_anti_bpm hb1 hb⟩

/-- Witness for C7 at ticks 48 ≤ 96, bpm 60 ≤ 120. -/
theorem C7_seconds_monotone_witness :
    get_time_seconds 48 120 ≤ get_time_seconds 96 120 ∧
    get_time_seconds 96 60 ≥ get_time_seconds 96 120 :=
  ⟨C7_seconds_monotone.1 48 96 120 (by norm_num) (by norm_num),
   C7_seconds_monotone.2 96 60 120 (by norm_num) (by norm_num)⟩

/-! ### NotePairer fold lemmas -/

theorem runEvents_append (bpm : ℚ) (t1 t2 : List Event) (s : PairState) :
    runEvents bpm s (t1 ++ t2) =
      (runEvents bpm s t1).bind fun s1 => runEvents bpm s1 t2 := by
  induction t1 generalizing s with
  | nil => simp [runEvents]
  | cons e rest ih =>
      simp only [List.cons_append, runEvents]
      cases stepEvent bpm s e with
      | none => simp
      | some s1 => simpa using ih s1

/-- C1 (amended): after the fold processes a note-end event while a note is
pending, the finalized note is appended to the output — but the pending slot
still holds the pending note; it is not reset to `None` (the source's
note-off arm reads `cur_note` by `Copy` and never clears it). -/
theorem C1_noteend_retains_pending (bpm : ℚ) (notes : List Note) (ct : Nat)
    (n : Note) (d ch p v : Nat) :
    stepEvent bpm ⟨notes, ct, some n⟩
        ⟨d, EventKind.Midi ch (MidiMessage.NoteOff p v)⟩ =
      some ⟨notes ++
          [⟨n.time_start, get_time_seconds (u32add ct d) bpm, n.pitch_value⟩],
        u32add ct d, some n⟩ := rfl

/-- C1 (counterexample): on the two-event track NoteOn then NoteOff, the
state immediately after the NoteOff still has the pending slot occupied
(`some ⟨0, 0, 60⟩`), not `None` as the claim states. -/
theorem C1_counterexample :
    runEvents 120 initState
        [⟨0, EventKind.Midi 0 (MidiMessage.NoteOn 60 64)⟩,
         ⟨0, EventKind.Midi 0 (MidiMessage.NoteOff 60 64)⟩] =
      some ⟨[⟨0, 0, 60⟩], 0, some ⟨0, 0, 60⟩⟩ ∧
    (some (⟨0, 0, 60⟩ : Note) : Option Note) ≠ none := by
  refine ⟨?_, by simp⟩
  norm_num [runEvents, stepEvent, initState, u32add, u32size, get_time_seconds]

/-- C5: a note-begin event unconditionally overwrites the pending slot
(whatever it held), and the concrete scenario NoteOn, NoteOn, NoteOff yields
exactly one note whose start time is the second NoteOn's converted time. -/
theorem C5_noteon_overwrites :
    (∀ (bpm : ℚ) (s : PairState) (d ch p v : Nat),
        stepEvent bpm s ⟨d, EventKind.Midi ch (MidiMessage.NoteOn p v)⟩ =
          some ⟨s.notes, u32add s.cur_time d,
            some ⟨get_time_seconds (u32add s.cur_time d) bpm, 0, p⟩⟩) ∧
    (∀ (bpm : ℚ) (d1 ch1 p1 v1 d2 ch2 p2 v2 d3 ch3 p3 v3 : Nat),
        get_notes
            [⟨d1, EventKind.Midi ch1 (MidiMessage.NoteOn p1 v1)⟩,
             ⟨d2, EventKind.Midi ch2 (MidiMessage.NoteOn p2 v2)⟩,
             ⟨d3, EventKind.Midi ch3 (MidiMessage.NoteOff p3 v3)⟩] bpm =
          some [⟨get_time_seconds (u32add (u32add 0 d1) d2) bpm,
                 get_time_seconds (u32add (u32add (u32add 0 d1) d2) d3) bpm,
                 p2⟩]) :=
  ⟨fun _ _ _ _ _ _ => rfl, fun _ _ _ _ _ _ _ _ _ _ _ _ _ => rfl⟩

/-! ### Panic characterization -/

theorem not_on_of_off {e : Event} (h : isNoteOff e = true) :
    isNoteOn e = false := by
  rcases e with ⟨d, k⟩
  cases k with
  | Midi ch m => cases m <;> simp_all [isNoteOn, isNoteOff]
  | Other => simp [isNoteOn]

theorem runEvents_eq_none_iff (bpm : ℚ) (track : List Event) (s : PairState) :
    runEvents bpm s track = none ↔
      s.cur_note = none ∧ hasUnmatchedEnd track = true := by
  induction track generalizing s with
  | nil => simp [runEvents, hasUnmatchedEnd]
  | cons e rest ih =>
      rcases e with ⟨d, k⟩
      cases k with
      | Midi ch m =>
          cases m with
          | NoteOn p v =>
              simp [runEvents, stepEvent, hasUnmatchedEnd, isNoteOn,
                isNoteOff, ih]
          | NoteOff p v =>
              cases hpend : s.cur_note with
              | none =>
                  simp [runEvents, stepEvent, hpend, hasUnmatchedEnd,
                    isNoteOff]
              | some n =>
                  simp [runEvents, stepEvent, hpend, hasUnmatchedEnd,
                    isNoteOff, ih]
          | Other =>
              simp [runEvents, stepEvent, hasUnmatchedEnd, isNoteOn,
                isNoteOff, ih]
      | Other =>
          simp [runEvents, stepEvent, hasUnmatchedEnd, isNoteOn, isNoteOff,
            ih]

theorem hasUnmatchedEnd_iff (track : List Event) :
    hasUnmatchedEnd track = true ↔
      ∃ pre e post, track = pre ++ e :: post ∧ isNoteOff e = true ∧
        ∀ x ∈ pre, isNoteOn x = false := by
  induction track with
  | nil =>
      constructor
      · intro h; simp [hasUnmatchedEnd] at h
      · rintro ⟨pre, e, post, h, -, -⟩
        exact absurd h (by simp)
  | cons a rest ih =>
      by_cases hoff : isNoteOff a = true
      · constructor
        · intro _
          exact ⟨[], a, rest, rfl, hoff, by simp⟩
        · intro _
          simp [hasUnmatchedEnd, hoff]
      · by_cases hon : isNoteOn a = true
        · constructor
          · intro h
            simp [hasUnmatchedEnd, hoff, hon] at h
          · rintro ⟨pre, e, post, heq, hoffe, hpre⟩
            cases pre with
            | nil =>
                simp at heq
                exact absurd (heq.1 ▸ hoffe) hoff
            | cons y pre2 =>
                simp at heq
                have hy := hpre y (by simp)
                rw [← heq.1] at hy
                simp [hon] at hy
        · have hstep : hasUnmatchedEnd (a :: rest) = hasUnmatchedEnd rest := by
            simp [hasUnmatchedEnd, hoff, hon]
          rw [hstep, ih]
          constructor
          · rintro ⟨pre, e, post, heq, hoffe, hpre⟩
            refine ⟨a :: pre, e, post, by rw [heq]; rfl, hoffe, ?_⟩
            intro x hx
            rcases List.mem_cons.mp hx with hx | hx
            · rw [hx]
              simpa using hon
            · exact hpre x hx
          · rintro ⟨pre, e, post, heq, hoffe, hpre⟩
            cases pre with
            | nil =>
                simp at heq
                exact absurd (heq.1 ▸ hoffe) hoff
            | cons y pre2 =>
                simp at heq
                exact ⟨pre2, e, post, heq.2, hoffe,
                  fun x hx => hpre x (by simp [hx])⟩

/-- C2: on a track that decomposes as pre ++ e :: post where e is a
note-end event and no note-begin occurs in pre, get_notes aborts: the run
is the panicked one (`none`) and no partial note list is produced. -/
theorem C2_unmatched_end_aborts (track : List Event) (bpm : ℚ)
    (pre : List Event) (e : Event) (post : List Event)
    (htrack : track = pre ++ e :: post) (hoff : isNoteOff e = true)
    (hpre : ∀ x ∈ pre, isNoteOn x = false) :
    get_notes track bpm = none := by
  have hnone : runEvents bpm initState track = none := by
    rw [runEvents_eq_none_iff]
    exact ⟨rfl, (hasUnmatchedEnd_iff track).mpr ⟨pre, e, post, htrack, hoff, hpre⟩⟩
  simp [get_notes, hnone]

/-- Witness for C2: a single unmatched NoteOff aborts the run. -/
theorem C2_unmatched_end_aborts_witness :
    isNoteOff ⟨5, EventKind.Midi 0 (MidiMessage.NoteOff 60 0)⟩ = true ∧
    get_notes [⟨5, EventKind.Midi 0 (MidiMessage.NoteOff 60 0)⟩] 120 = none :=
  ⟨rfl, C2_unmatched_end_aborts _ 120 [] _ [] rfl rfl (by simp)⟩

/-- C9: get_notes aborts if and only if some note-end event has no
note-begin anywhere earlier in the track; and from any state whose pending
slot holds n, two consecutive note-end events do not abort — each emits a
note with n's pitch and start time, the second with a later-stamped end
time, and the pending slot still holds n. -/
theorem C9_panic_iff_and_duplicate :
    (∀ (track : List Event) (bpm : ℚ),
        get_notes track bpm = none ↔
          ∃ pre e post, track = pre ++ e :: post ∧ isNoteOff e = true ∧
            ∀ x ∈ pre, isNoteOn x = false) ∧
    (∀ (bpm : ℚ) (notes : List Note) (ct : Nat) (n : Note)
        (d1 ch1 p1 v1 d2 ch2 p2 v2 : Nat),
        runEvents bpm ⟨notes, ct, some n⟩
            [⟨d1, EventKind.Midi ch1 (MidiMessage.NoteOff p1 v1)⟩,
             ⟨d2, EventKind.Midi ch2 (MidiMessage.NoteOff p2 v2)⟩] =
          some ⟨notes ++
              [⟨n.time_start, get_time_seconds (u32add ct d1) bpm,
                 n.pitch_value⟩,
               ⟨n.time_start, get_time_seconds (u32add (u32add ct d1) d2) bpm,
                 n.pitch_value⟩],
            u32add (u32add ct d1) d2, some n⟩) := by
  constructor
  · intro track bpm
    rw [get_notes, Option.map_eq_none', runEvents_eq_none_iff]
    simp [initState, hasUnmatchedEnd_iff]
  · intro bpm notes ct n d1 ch1 p1 v1 d2 ch2 p2 v2
    simp [runEvents, stepEvent]

/-- Witness for C9: a lone NoteOff aborts; from pending ⟨0,0,60⟩ two
NoteOffs in a row emit two copies of the note. -/
theorem C9_panic_iff_and_duplicate_witness :
    get_notes [⟨0, EventKind.Midi 0 (MidiMessage.NoteOff 60 0)⟩] 120 = none ∧
    runEvents 120 ⟨[], 0, some ⟨0, 0, 60⟩⟩
        [⟨0, EventKind.Midi 0 (MidiMessage.NoteOff 60 0)⟩,
         ⟨0, EventKind.Midi 0 (MidiMessage.NoteOff 60 0)⟩] =
      some ⟨[⟨0, get_time_seconds (u32add 0 0) 120, 60⟩,
             ⟨0, get_time_seconds (u32add (u32add 0 0) 0) 120, 60⟩],
        u32add (u32add 0 0) 0, some ⟨0, 0, 60⟩⟩ := by
  refine ⟨(C9_panic_iff_and_duplicate.1 _ 120).mpr ⟨[], _, [], rfl, rfl, by simp⟩, ?_⟩
  have h := C9_panic_iff_and_duplicate.2 120 [] 0 ⟨0, 0, 60⟩ 0 0 60 0 0 0 60 0
  simpa using h

/-! ### Alternating tracks -/

theorem alternatingTrack_cons (p : NotePair) (ps : List NotePair) :
    alternatingTrack (p :: ps) = pairToEvents p ++ alternatingTrack ps := by
  simp [alternatingTrack]

theorem runEvents_pair (bpm : ℚ) (s : PairState) (p : NotePair) :
    runEvents bpm s (pairToEvents p) =
      some ⟨s.notes ++
          [⟨get_time_seconds (u32add s.cur_time p.onDelta) bpm,
            get_time_seconds (u32add (u32add s.cur_time p.onDelta) p.offDelta)
              bpm,
            p.pitch⟩],
        u32add (u32add s.cur_time p.onDelta) p.offDelta,
        some ⟨get_time_seconds (u32add s.cur_time p.onDelta) bpm, 0,
          p.pitch⟩⟩ := rfl

theorem runEvents_alternating (bpm : ℚ) (ps : List NotePair) :
    ∀ s : PairState, ∃ s1 : PairState,
      runEvents bpm s (alternatingTrack ps) = some s1 ∧
      s1.notes = s.notes ++ expectedNotes bpm s.cur_time ps := by
  induction ps with
  | nil =>
      intro s
      exact ⟨s, rfl, by simp [expectedNotes]⟩
  | cons p ps ih =>
      intro s
      rw [alternatingTrack_cons, runEvents_append, runEvents_pair]
      obtain ⟨s1, hrun, hnotes⟩ := ih
        ⟨s.notes ++
            [⟨get_time_seconds (u32add s.cur_time p.onDelta) bpm,
              get_time_seconds (u32add (u32add s.cur_time p.onDelta)
                p.offDelta) bpm,
              p.pitch⟩],
          u32add (u32add s.cur_time p.onDelta) p.offDelta,
          some ⟨get_time_seconds (u32add s.cur_time p.onDelta) bpm, 0,
            p.pitch⟩⟩
      refine ⟨s1, by simpa using hrun, ?_⟩
      rw [hnotes]
      simp [expectedNotes]

theorem expectedNotes_length (bpm : ℚ) (ct : Nat) (ps : List NotePair) :
    (expectedNotes bpm ct ps).length = ps.length := by
  induction ps generalizing ct with
  | nil => rfl
  | cons p ps ih => simp [expectedNotes, ih]

theorem expectedNotes_pitches (bpm : ℚ) (ct : Nat) (ps : List NotePair) :
    (expectedNotes bpm ct ps).map Note.pitch_value =
      ps.map NotePair.pitch := by
  induction ps generalizing ct with
  | nil => rfl
  | cons p ps ih => simp [expectedNotes, ih]

theorem alternating_countP (ps : List NotePair) :
    (alternatingTrack ps).countP (fun e => isNoteOff e) = ps.length := by
  induction ps with
  | nil => rfl
  | cons p ps ih =>
      rw [alternatingTrack_cons, List.countP_append, ih]
      simp [pairToEvents, List.countP_cons, isNoteOff]
      omega

/-- C3: on a track of alternating NoteBegin/NoteEnd pairs, get_notes
succeeds and returns `expectedNotes`: one note per pair in pair order, so
the note count equals the number of note-end events and the k-th note's
pitch is the pitch of its matching (k-th) note-begin. -/
theorem C3_alternating_pairs (ps : List NotePair) (bpm : ℚ) :
    get_notes (alternatingTrack ps) bpm = some (expectedNotes bpm 0 ps) ∧
    (expectedNotes bpm 0 ps).length =
      (alternatingTrack ps).countP (fun e => isNoteOff e) ∧
    (expectedNotes bpm 0 ps).map Note.pitch_value =
      ps.map NotePair.pitch := by
  obtain ⟨s1, hrun, hnotes⟩ := runEvents_alternating bpm ps initState
  refine ⟨?_, ?_, expectedNotes_pitches bpm 0 ps⟩
  · rw [get_notes, hrun]
    simp only [Option.map_some']
    rw [hnotes]
    simp [initState]
  · rw [alternating_countP, expectedNotes_length]

/-! ### Trailing pending notes -/

theorem runEvents_no_off (bpm : ℚ) :
    ∀ (suffix : List Event), (∀ e ∈ suffix, isNoteOff e = false) →
      ∀ s : PairState,
        ∃ s1, runEvents bpm s suffix = some s1 ∧ s1.notes = s.notes
  | [], _, s => ⟨s, rfl, rfl⟩
  | e :: rest, hsuf, s => by
      have hrest : ∀ x ∈ rest, isNoteOff x = false :=
        fun x hx => hsuf x (by simp [hx])
      have he : isNoteOff e = false := hsuf e (by simp)
      rcases e with ⟨d, k⟩
      cases k with
      | Midi ch m =>
          cases m with
          | NoteOn p v =>
              obtain ⟨s1, h1, h2⟩ := runEvents_no_off bpm rest hrest
                ⟨s.notes, u32add s.cur_time d,
                 some ⟨get_time_seconds (u32add s.cur_time d) bpm, 0, p⟩⟩
              exact ⟨s1, by simpa [runEvents, stepEvent] using h1, h2⟩
          | NoteOff p v => simp [isNoteOff] at he
          | Other =>
              obtain ⟨s1, h1, h2⟩ := runEvents_no_off bpm rest hrest
                ⟨s.notes, u32add s.cur_time d, s.cur_note⟩
              exact ⟨s1, by simpa [runEvents, stepEvent] using h1, h2⟩
      | Other =>
          obtain ⟨s1, h1, h2⟩ := runEvents_no_off bpm rest hrest
            ⟨s.notes, u32add s.cur_time d, s.cur_note⟩
          exact ⟨s1, by simpa [runEvents, stepEvent] using h1, h2⟩

theorem runEvents_length (bpm : ℚ) (track : List Event) :
    ∀ (s s1 : PairState), runEvents bpm s track = some s1 →
      s1.notes.length =
        s.notes.length + track.countP (fun e => isNoteOff e) := by
  induction track with
  | nil =>
      intro s s1 h
      simp [runEvents] at h
      simp [← h]
  | cons e rest ih =>
      intro s s1 h
      rcases e with ⟨d, k⟩
      cases k with
      | Midi ch m =>
          cases m with
          | NoteOn p v =>
              simp only [runEvents, stepEvent] at h
              have hlen := ih _ _ h
              simp [List.countP_cons, isNoteOff] at hlen ⊢
              omega
          | NoteOff p v =>
              cases hpend : s.cur_note with
              | none => simp [runEvents, stepEvent, hpend] at h
              | some n =>
                  simp only [runEvents, stepEvent, hpend] at h
                  have hlen := ih _ _ h
                  simp [List.countP_cons, isNoteOff] at hlen ⊢
                  omega
          | Other =>
              simp only [runEvents, stepEvent] at h
              have hlen := ih _ _ h
              simp [List.countP_cons, isNoteOff] at hlen ⊢
              omega
      | Other =>
          simp only [runEvents, stepEvent] at h
          have hlen := ih _ _ h
          simp [List.countP_cons, isNoteOff] at hlen ⊢
          omega

/-- C6: appending trailing events that contain no note-end (in particular a
single trailing NoteOn) changes neither success nor the returned note list;
and on every successful run the note count equals the number of note-end
events, so a pending note is never flushed into the output at
end-of-track. -/
theorem C6_trailing_pending_dropped :
    (∀ (track suffix : List Event) (bpm : ℚ),
        (∀ e ∈ suffix, isNoteOff e = false) →
        get_notes (track ++ suffix) bpm = get_notes track bpm) ∧
    (∀ (track : List Event) (bpm : ℚ) (ns : List Note),
        get_notes track bpm = some ns →
        ns.length = track.countP (fun e => isNoteOff e)) := by
  constructor
  · intro track suffix bpm hsuf
    rw [get_notes, get_notes, runEvents_append]
    cases hrun : runEvents bpm initState track with
    | none => simp
    | some s1 =>
        obtain ⟨s2, h1, h2⟩ := runEvents_no_off bpm suffix hsuf s1
        simp [h1, h2]
  · intro track bpm ns h
    rw [get_notes] at h
    cases hrun : runEvents bpm initState track with
    | none => rw [hrun] at h; simp at h
    | some s1 =>
        rw [hrun] at h
        simp only [Option.map_some', Option.some.injEq] at h
        have hlen := runEvents_length bpm track initState s1 hrun
        rw [← h]
        simpa [initState] using hlen

/-- Witness for C6: a lone trailing NoteOn yields the same (empty) output
as the empty track. -/
theorem C6_trailing_pending_dropped_witness :
    (∀ e ∈ [(⟨7, EventKind.Midi 0 (MidiMessage.NoteOn 64 100)⟩ : Event)],
        isNoteOff e = false) ∧
    get_notes ([] ++ [⟨7, EventKind.Midi 0 (MidiMessage.NoteOn 64 100)⟩])
        120 = get_notes [] 120 :=
  ⟨by decide, C6_trailing_pending_dropped.1 [] _ 120 (by decide)⟩

/-! ### Time ordering of finalized notes -/

theorem u32add_eq_add {a b : Nat} (h : a + b < u32size) :
    u32add a b = a + b := Nat.mod_eq_of_lt h

theorem goodState_step (bpm : ℚ) (hb : 0 < bpm) (s : PairState) (e : Event)
    (hgood : goodState bpm s) (hov : s.cur_time + e.delta < u32size) :
    ∀ s1, stepEvent bpm s e = some s1 →
      goodState bpm s1 ∧ s1.cur_time = s.cur_time + e.delta := by
  have hct : u32add s.cur_time e.delta = s.cur_time + e.delta :=
    u32add_eq_add hov
  rcases e with ⟨d, k⟩
  intro s1 h
  cases k with
  | Midi ch m =>
      cases m with
      | NoteOn p v =>
          simp only [stepEvent] at h
          obtain rfl := Option.some.inj h
          refine ⟨⟨hgood.1, ?_⟩, hct⟩
          intro n hn
          simp only [Option.some.injEq] at hn
          exact ⟨u32add s.cur_time d, le_refl _, by rw [← hn]⟩
      | NoteOff p v =>
          cases hpend : s.cur_note with
          | none => simp [stepEvent, hpend] at h
          | some pn =>
              simp only [stepEvent, hpend] at h
              obtain ⟨t0, ht0, hstart⟩ := hgood.2 pn hpend
              have ht0' : t0 ≤ u32add s.cur_time d := by
                rw [hct]; omega
              obtain rfl := Option.some.inj h
              refine ⟨⟨?_, ?_⟩, hct⟩
              · intro note hnote
                rcases List.mem_append.mp hnote with hmem | hmem
                · exact hgood.1 note hmem
                · simp only [List.mem_singleton] at hmem
                  rw [hmem]
                  rw [hstart]
                  exact seconds_mono_ticks hb ht0'
              · intro n hn
                simp only [Option.some.injEq] at hn
                exact ⟨t0, by simpa using ht0', by rw [← hn]; exact hstart⟩
      | Other =>
          simp only [stepEvent] at h
          obtain rfl := Option.some.inj h
          refine ⟨⟨hgood.1, ?_⟩, hct⟩
          intro n hn
          obtain ⟨t0, ht0, hstart⟩ := hgood.2 n hn
          refine ⟨t0, ?_, hstart⟩
          show t0 ≤ u32add s.cur_time d
          have hov' : s.cur_time + d < u32size := by simpa using hov
          rw [u32add_eq_add hov']
          omega
  | Other =>
      simp only [stepEvent] at h
      obtain rfl := Option.some.inj h
      refine ⟨⟨hgood.1, ?_⟩, hct⟩
      intro n hn
      obtain ⟨t0, ht0, hstart⟩ := hgood.2 n hn
      refine ⟨t0, ?_, hstart⟩
      show t0 ≤ u32add s.cur_time d
      have hov' : s.cur_time + d < u32size := by simpa using hov
      rw [u32add_eq_add hov']
      omega

theorem runEvents_good (bpm : ℚ) (hb : 0 < bpm) (track : List Event) :
    ∀ s : PairState, goodState bpm s →
      s.cur_time + (track.map Event.delta).sum < u32size →
      ∀ s1, runEvents bpm s track = some s1 → goodState bpm s1 := by
  induction track with
  | nil =>
      intro s hg _ s1 h
      simp [runEvents] at h
      rw [← h]
      exact hg
  | cons e rest ih =>
      intro s hg hov s1 h
      have hsum : (List.map Event.delta (e :: rest)).sum =
          e.delta + (rest.map Event.delta).sum := by simp
      have hov1 : s.cur_time + e.delta < u32size := by
        rw [hsum] at hov; omega
      simp only [runEvents] at h
      cases hstep : stepEvent bpm s e with
      | none => rw [hstep] at h; simp at h
      | some s2 =>
          rw [hstep] at h
          simp only at h
          obtain ⟨hg2, hct2⟩ := goodState_step bpm hb s e hg hov1 s2 hstep
          refine ih s2 hg2 ?_ s1 h
          rw [hct2]
          rw [hsum] at hov
          omega

/-- C8: for positive bpm and a track whose total delta ticks stay within
the u32 range (so the absolute clock never wraps), every note returned by
get_notes has time_end ≥ time_start. -/
theorem C8_time_end_ge_time_start (track : List Event) (bpm : ℚ)
    (ns : List Note) (hb : 0 < bpm)
    (hov : (track.map Event.delta).sum < u32size)
    (h : get_notes track bpm = some ns) :
    ∀ note ∈ ns, note.time_start ≤ note.time_end := by
  rw [get_notes] at h
  cases hrun : runEvents bpm initState track with
  | none => rw [hrun] at h; simp at h
  | some s1 =>
      rw [hrun] at h
      simp only [Option.map_some', Option.some.injEq] at h
      have hg : goodState bpm initState :=
        ⟨by simp [initState], by simp [initState]⟩
      have hgood := runEvents_good bpm hb track initState hg
        (by simpa [initState] using hov) s1 hrun
      rw [← h]
      exact hgood.1

/-- Witness for C8 on the track NoteOn (delta 0), NoteOff (delta 48) at
bpm 120, whose single output note is ⟨0, 0.25, 60⟩. -/
theorem C8_time_end_ge_time_start_witness :
    (0 : ℚ) < 120 ∧
    ∀ note ∈ [(⟨0, 0.25, 60⟩ : Note)], note.time_start ≤ note.time_end := by
  refine ⟨by norm_num, C8_time_end_ge_time_start
    [⟨0, EventKind.Midi 0 (MidiMessage.NoteOn 60 64)⟩,
     ⟨48, EventKind.Midi 0 (MidiMessage.NoteOff 60 64)⟩] 120 _ (by norm_num)
    (by norm_num [u32size]) ?_⟩
  norm_num [get_notes, runEvents, stepEvent, initState, u32add, u32size,
    get_time_seconds]

/-! ### Velocity irrelevance -/

theorem stepEvent_eraseVelocity (bpm : ℚ) (s : PairState) (e : Event) :
    stepEvent bpm s (eraseVelocity e) = stepEvent bpm s e := by
  rcases e with ⟨d, k⟩
  cases k with
  | Midi ch m => cases m <;> rfl
  | Other => rfl

theorem runEvents_velocity_irrelevant (bpm : ℚ) :
    ∀ (t1 t2 : List Event), t1.map eraseVelocity = t2.map eraseVelocity →
      ∀ s, runEvents bpm s t1 = runEvents bpm s t2 := by
  intro t1
  induction t1 with
  | nil =>
      intro t2 h s
      cases t2 with
      | nil => rfl
      | cons b l2 => simp at h
  | cons a l1 ih =>
      intro t2 h s
      cases t2 with
      | nil => simp at h
      | cons b l2 =>
          simp only [List.map_cons, List.cons.injEq] at h
          have hstep : stepEvent bpm s a = stepEvent bpm s b := by
            rw [← stepEvent_eraseVelocity bpm s a, h.1,
              stepEvent_eraseVelocity]
          simp only [runEvents, hstep]
          cases stepEvent bpm s b with
          | none => rfl
          | some s2 => exact ih l2 h.2 s2

/-- C10: two tracks equal after erasing velocities produce the same result
from get_notes; and a NoteOn with velocity 0 acts exactly as a fresh note
begin — it overwrites the pending slot and appends nothing — never as a
note end. -/
theorem C10_velocity_irrelevant :
    (∀ (t1 t2 : List Event) (bpm : ℚ),
        t1.map eraseVelocity = t2.map eraseVelocity →
        get_notes t1 bpm = get_notes t2 bpm) ∧
    (∀ (bpm : ℚ) (s : PairState) (d ch p : Nat),
        stepEvent bpm s ⟨d, EventKind.Midi ch (MidiMessage.NoteOn p 0)⟩ =
          some ⟨s.notes, u32add s.cur_time d,
            some ⟨get_time_seconds (u32add s.cur_time d) bpm, 0, p⟩⟩) := by
  refine ⟨fun t1 t2 bpm h => ?_, fun _ _ _ _ _ => rfl⟩
  rw [get_notes, get_notes,
    runEvents_velocity_irrelevant bpm t1 t2 h initState]

/-- Witness for C10: two one-pair tracks differing only in velocities give
equal results. -/
theorem C10_velocity_irrelevant_witness :
    ([(⟨0, EventKind.Midi 0 (MidiMessage.NoteOn 60 100)⟩ : Event),
      ⟨48, EventKind.Midi 0 (MidiMessage.NoteOff 60 100)⟩].map eraseVelocity =
     [(⟨0, EventKind.Midi 0 (MidiMessage.NoteOn 60 1)⟩ : Event),
      ⟨48, EventKind.Midi 0 (MidiMessage.NoteOff 60 7)⟩].map eraseVelocity) ∧
    get_notes [⟨0, EventKind.Midi 0 (MidiMessage.NoteOn 60 100)⟩,
        ⟨48, EventKind.Midi 0 (MidiMessage.NoteOff 60 100)⟩] 120 =
      get_notes [⟨0, EventKind.Midi 0 (MidiMessage.NoteOn 60 1)⟩,
        ⟨48, EventKind.Midi 0 (MidiMessage.NoteOff 60 7)⟩] 120 :=
  ⟨by decide, C10_velocity_irrelevant.1 _ _ 120 (by decide)⟩

end Midi2Json
